import Mathlib

/-!
Verification of the Py3DImage Part-2 notebook (`P2.ipynb`): a 3D image-processing
pipeline of denoising filters, intensity adjustment, thresholding and binary cleanup.

The notebook's own code (`calculate_metrics`, `create_enhancement_grid`,
`adaptive_threshold_3d`) is embedded directly.  Library routines it calls
(scipy.ndimage filters, skimage thresholds, morphology) are not part of the
repository; where a property depends on them they are modelled from the
specification's description, and each such definition is marked
`Modelled from the spec:` in its doc comment.

Numeric conventions: float arrays are modelled exactly over the rationals;
unsigned integer arrays are modelled as naturals with explicit wrap-around
modulo `2 ^ w` where numpy's fixed-width arithmetic wraps.
-/

namespace Py3DImage

/-- Mean of a list of rationals, as numpy computes it: sum divided by length
(the empty case never arises in the claims; Lean's `0 / 0 = 0` convention applies). -/
def lmean (xs : List ℚ) : ℚ := xs.sum / xs.length

/-- A 2D grayscale slice, already converted to float samples (`img_as_float`). -/
abbrev Slice2 := List (List ℚ)

/-- Elementwise map over a 2D slice (numpy broadcasting of a scalar operation). -/
def map2d (f : ℚ → ℚ) (s : Slice2) : Slice2 := s.map (List.map f)

/-- numpy's `.mean()` of a 2D array: sum of all entries over the number of entries. -/
def mean2d (s : Slice2) : ℚ := lmean s.flatten

/-- numpy's `np.clip(x, 0, 1)` applied to one sample. -/
def clip01 (x : ℚ) : ℚ := min (max x 0) 1

/-- Round to the nearest integer, ties to even — numpy's rounding, used when
skimage rescales a float image to 8-bit. -/
def rint (q : ℚ) : ℤ :=
  let n := ⌊q⌋
  let r := q - n
  if r < 1/2 then n
  else if 1/2 < r then n + 1
  else if n % 2 = 0 then n else n + 1

/-- Modelled from the spec: `img_as_ubyte` (skimage, not in the repository) rescales a
float sample in the unit interval to the 8-bit output range: multiply by 255, round to
nearest, clamp to `[0, 255]`. -/
def img_as_ubyte (x : ℚ) : ℤ := max 0 (min 255 (rint (255 * x)))

/-- Rescale a whole slice to 8-bit. -/
def toUbyte (s : Slice2) : List (List ℤ) := s.map (List.map img_as_ubyte)

/-- The enhancement applied to one float-normalised slice inside
`create_enhancement_grid`, line for line:
`enhanced = img_float * contrast`; `enhanced = enhanced - enhanced.mean() + 0.5`;
`enhanced = enhanced * brightness`; `enhanced = np.clip(enhanced, 0, 1)`;
`enhanced = img_as_ubyte(enhanced)`. -/
def enhance (img_float : Slice2) (brightness contrast : ℚ) : List (List ℤ) :=
  let e1 := map2d (fun x => x * contrast) img_float
  let e2 := map2d (fun x => x - mean2d e1 + 1/2) e1
  let e3 := map2d (fun x => x * brightness) e2
  let e4 := map2d clip01 e3
  toUbyte e4

/-- Spec step one: multiply by the contrast factor. -/
def specContrastStep (c : ℚ) (s : Slice2) : Slice2 := map2d (fun x => x * c) s

/-- Spec step two: recentre around 0.5 by subtracting the post-contrast mean and
adding 0.5. -/
def specRecentreStep (s : Slice2) : Slice2 := map2d (fun x => x - mean2d s + 1/2) s

/-- Spec step three: multiply by the brightness factor. -/
def specBrightnessStep (b : ℚ) (s : Slice2) : Slice2 := map2d (fun x => x * b) s

/-- Spec step four: clip to `[0, 1]`. -/
def specClipStep (s : Slice2) : Slice2 := map2d clip01 s

/-- The spec's description of the intensity adjustment: the five named steps composed in
the stated order — contrast, recentre, brightness, clip, rescale to 8-bit. -/
def enhance_spec (img : Slice2) (b c : ℚ) : List (List ℤ) :=
  toUbyte (specClipStep (specBrightnessStep b (specRecentreStep (specContrastStep c img))))

/-! ### Quality metrics (`calculate_metrics`) -/

/-- numpy subtraction on unsigned w-bit samples: the difference wraps modulo `2 ^ w`. -/
def sub_wrap (w a b : ℕ) : ℕ := (a + (2 ^ w - b % 2 ^ w)) % 2 ^ w

/-- numpy squaring on an unsigned w-bit sample: the product wraps modulo `2 ^ w`. -/
def sq_wrap (w a : ℕ) : ℕ := a * a % 2 ^ w

/-- numpy's `np.mean` of an unsigned integer array (the mean itself is taken in
float64, modelled exactly). -/
def umean (xs : List ℕ) : ℚ := (xs.sum : ℚ) / xs.length

/-- numpy's `np.var` of an unsigned integer array: mean squared deviation from the
mean, computed in float64. -/
def uvar (xs : List ℕ) : ℚ := lmean (xs.map (fun x => ((x : ℚ) - umean xs) ^ 2))

/-- The mean-squared-error line of `calculate_metrics` on unsigned w-bit arrays:
`np.mean((original - filtered) ** 2)`, where both the subtraction and the squaring
happen in the array's fixed-width dtype and wrap. -/
def mse_u (w : ℕ) (original filtered : List ℕ) : ℚ :=
  umean (original.zipWith (fun a b => sq_wrap w (sub_wrap w a b)) filtered)

/-- Result of the SNR computation: `posInf` is the `mse = 0` branch
(`float('inf')`); `db r` is the finite branch, carrying the variance-to-mse
quotient `r` whose displayed decibel value is `10 * log10 r` (the strictly monotone
logarithm is kept symbolic so the development stays computable). -/
inductive SNR where
  | db (r : ℚ) : SNR
  | posInf : SNR
deriving DecidableEq

/-- `calculate_metrics` from the notebook, on unsigned w-bit arrays:
`mse = np.mean((original - filtered) ** 2)` and
`snr = 10 * np.log10(np.var(original) / mse) if mse > 0 else float('inf')`. -/
def calculate_metrics (w : ℕ) (original filtered : List ℕ) : ℚ × SNR :=
  let mse := mse_u w original filtered
  (mse, if 0 < mse then SNR.db (uvar original / mse) else SNR.posInf)

/-- The mean squared error as claim C10 words it: the squares of the
modulo-`2 ^ w` differences, with only the difference wrapped. -/
def claimedMSE (w : ℕ) (original filtered : List ℕ) : ℚ :=
  umean (original.zipWith (fun a b => sub_wrap w a b ^ 2) filtered)

/-- The true mean squared error, over the integers, with no wrap-around. -/
def trueMSE (original filtered : List ℕ) : ℚ :=
  lmean (original.zipWith (fun a b => ((a : ℚ) - (b : ℚ)) ^ 2) filtered)

/-! ### Basic lemmas about the wrap-around arithmetic -/

theorem sub_wrap_self (w a : ℕ) : sub_wrap w a a = 0 := by
  unfold sub_wrap
  have hm : 0 < 2 ^ w := Nat.two_pow_pos w
  have h1 : a % 2 ^ w ≤ a := Nat.mod_le a _
  have h2 : a % 2 ^ w < 2 ^ w := Nat.mod_lt a hm
  have h3 : a % 2 ^ w + 2 ^ w * (a / 2 ^ w) = a := Nat.mod_add_div a (2 ^ w)
  have h4 : a + (2 ^ w - a % 2 ^ w) = 2 ^ w * (a / 2 ^ w + 1) := by
    rw [Nat.mul_add, Nat.mul_one]
    omega
  rw [h4, Nat.mul_mod_right]

theorem sq_wrap_zero (w : ℕ) : sq_wrap w 0 = 0 := by
  simp [sq_wrap]

/-- C3: for every nonempty unsigned array `x`, `calculate_metrics` computes
`MSE(x, x) = 0` and, since the MSE is not positive, returns `+infinity` for the SNR
instead of raising a division error. -/
theorem C3_mse_self_zero_snr_posInf (w : ℕ) (x : List ℕ) (h : x ≠ []) :
    calculate_metrics w x x = (0, SNR.posInf) := by
  have hz : mse_u w x x = 0 := by
    unfold mse_u
    rw [List.zipWith_same]
    have : ∀ y ∈ x.map (fun a => sq_wrap w (sub_wrap w a a)), y = 0 := by
      intro y hy
      rcases List.mem_map.1 hy with ⟨a, _, rfl⟩
      rw [sub_wrap_self, sq_wrap_zero]
    unfold umean
    rw [List.sum_eq_zero this]
    simp
  unfold calculate_metrics
  rw [hz]
  simp

theorem C3_witness : ([0] : List ℕ) ≠ [] ∧ calculate_metrics 8 [0] [0] = (0, SNR.posInf) :=
  ⟨by decide, C3_mse_self_zero_snr_posInf 8 [0] (by decide)⟩

/-! ### The intensity adjustment (claims C1 and C2) -/

/-- C2: for every input slice, brightness factor and contrast factor, the enhancement
computes exactly the spec's sequence of steps in the spec's order: multiply by contrast,
recentre by subtracting the post-contrast mean and adding 0.5, multiply by brightness,
clip to the unit interval, rescale to the 8-bit range. -/
theorem C2_enhancement_order (img : Slice2) (b c : ℚ) :
    enhance img b c = enhance_spec img b c := rfl

/-- C1: the adjustment with brightness 1 and contrast 1 is not the identity.  The
notebook's own markdown documents contrast as `(I - 127.5) * c + 127.5`, which is the
identity at `c = 1`; the code instead recentres by the image mean, so on the all-zero
slice (mean 0) every sample is shifted to 0.5 and rescales to 128 instead of 0. -/
theorem C1_enhancement_identity_fails :
    enhance [[0]] 1 1 = [[128]] ∧ toUbyte [[0]] = [[0]] ∧
      enhance [[0]] 1 1 ≠ toUbyte [[0]] := by
  have h1 : enhance [[0]] 1 1 = [[128]] := by
    norm_num [enhance, toUbyte, map2d, mean2d, lmean, clip01, img_as_ubyte, rint]
  have h2 : toUbyte [[0]] = [[0]] := by
    norm_num [toUbyte, img_as_ubyte, rint]
  refine ⟨h1, h2, ?_⟩
  rw [h1, h2]
  decide

/-! ### Wrap-around MSE (claim C10) -/

/-- The wrapped difference is the true integer difference reduced modulo `2 ^ w`. -/
theorem sub_wrap_emod (w a b : ℕ) :
    (sub_wrap w a b : ℤ) = ((a : ℤ) - (b : ℤ)) % (2 ^ w : ℤ) := by
  have hm : 0 < 2 ^ w := Nat.two_pow_pos w
  have hble : b % 2 ^ w ≤ 2 ^ w := le_of_lt (Nat.mod_lt b hm)
  unfold sub_wrap
  push_cast [hble]
  have h0 : ((2 : ℤ) ^ w) ≡ 0 [ZMOD ((2 : ℤ) ^ w)] := Int.modEq_zero_iff_dvd.2 dvd_rfl
  have h1 : ((b : ℤ) % 2 ^ w) ≡ (b : ℤ) [ZMOD ((2 : ℤ) ^ w)] :=
    Int.emod_emod_of_dvd _ dvd_rfl
  have h2 : ((a : ℤ) + (2 ^ w - (b : ℤ) % 2 ^ w)) ≡ ((a : ℤ) + (0 - (b : ℤ)))
      [ZMOD ((2 : ℤ) ^ w)] :=
    Int.ModEq.add_left _ (Int.ModEq.sub h0 h1)
  calc ((a : ℤ) + (2 ^ w - (b : ℤ) % 2 ^ w)) % 2 ^ w
      = ((a : ℤ) + (0 - (b : ℤ))) % 2 ^ w := h2
    _ = ((a : ℤ) - (b : ℤ)) % 2 ^ w := by ring_nf

/-- The element the MSE line actually averages: the square also wraps, so it equals
the square of the true difference reduced modulo `2 ^ w`. -/
theorem sq_sub_wrap_emod (w a b : ℕ) :
    (sq_wrap w (sub_wrap w a b) : ℤ) = ((a : ℤ) - (b : ℤ)) ^ 2 % (2 ^ w : ℤ) := by
  unfold sq_wrap
  push_cast
  rw [sub_wrap_emod, ← Int.mul_emod, ← pow_two]

theorem zipWith_sum_cast (g : ℕ → ℕ → ℕ) (g' : ℕ → ℕ → ℤ)
    (hg : ∀ a b, (g a b : ℤ) = g' a b) :
    ∀ xs ys : List ℕ, ((List.zipWith g xs ys).sum : ℤ) = (List.zipWith g' xs ys).sum := by
  intro xs
  induction xs with
  | nil => intro ys; simp
  | cons x xs ih =>
    intro ys
    cases ys with
    | nil => simp
    | cons y ys =>
      simp only [List.zipWith_cons_cons, List.sum_cons, Nat.cast_add, ih ys, hg x y]

/-- C10 amended: on unsigned w-bit inputs the computed MSE is the mean of
`(original - filtered) ^ 2` reduced modulo `2 ^ w` (both the difference and its square
wrap); wherever the filtered value exceeds the original the difference wraps to the true
difference plus `2 ^ w`; and the reported MSE is not in general the true MSE. -/
theorem C10_mse_wraps (w : ℕ) (original filtered : List ℕ)
    (h : original.length = filtered.length) :
    mse_u w original filtered =
      (((List.zipWith (fun (a b : ℕ) => ((a : ℤ) - (b : ℤ)) ^ 2 % (2 ^ w : ℤ))
          original filtered).sum : ℤ) : ℚ) / original.length
    ∧ (∀ a b : ℕ, a < 2 ^ w → b < 2 ^ w → a < b →
        (sub_wrap w a b : ℤ) = (a : ℤ) - (b : ℤ) + 2 ^ w)
    ∧ mse_u 8 [0] [16] ≠ trueMSE [0] [16] := by
  refine ⟨?_, ?_,
    by norm_num [mse_u, trueMSE, umean, lmean, sq_wrap, sub_wrap]⟩
  · unfold mse_u umean
    rw [List.length_zipWith, h, min_self, ← h]
    have hz : ((List.zipWith (fun a b => sq_wrap w (sub_wrap w a b)) original filtered).sum : ℤ)
        = (List.zipWith (fun (a b : ℕ) => ((a : ℤ) - (b : ℤ)) ^ 2 % (2 ^ w : ℤ))
            original filtered).sum :=
      zipWith_sum_cast _ _ (fun a b => sq_sub_wrap_emod w a b) original filtered
    have hq : ((List.zipWith (fun a b => sq_wrap w (sub_wrap w a b)) original filtered).sum : ℚ)
        = (((List.zipWith (fun (a b : ℕ) => ((a : ℤ) - (b : ℤ)) ^ 2 % (2 ^ w : ℤ))
            original filtered).sum : ℤ) : ℚ) := by
      rw [← hz]
      norm_cast
      simp [List.map_map, Function.comp_def]
    rw [hq]
  · intro a b ha hb hab
    have hm : (0 : ℤ) < 2 ^ w := by positivity
    have hb' : (b : ℤ) < 2 ^ w := by exact_mod_cast hb
    have hab' : (a : ℤ) < (b : ℤ) := by exact_mod_cast hab
    have ha0 : (0 : ℤ) ≤ (a : ℤ) := Int.natCast_nonneg a
    have hshift : ((a : ℤ) - (b : ℤ) + 2 ^ w) ≡ ((a : ℤ) - (b : ℤ) + 0)
        [ZMOD ((2 : ℤ) ^ w)] :=
      Int.ModEq.add_left _ (Int.modEq_zero_iff_dvd.2 dvd_rfl)
    calc (sub_wrap w a b : ℤ) = ((a : ℤ) - (b : ℤ)) % 2 ^ w := sub_wrap_emod w a b
      _ = ((a : ℤ) - (b : ℤ) + 0) % 2 ^ w := by rw [add_zero]
      _ = ((a : ℤ) - (b : ℤ) + 2 ^ w) % 2 ^ w := hshift.symm
      _ = (a : ℤ) - (b : ℤ) + 2 ^ w := Int.emod_eq_of_lt (by linarith) (by linarith)

/-- C10 counterexample: the claim's own formula — squaring the wrapped difference
without reducing the square — disagrees with what the code computes: at
`original = [0]`, `filtered = [16]` (uint8) the code yields MSE `0`, the claim's
formula yields `57600`. -/
theorem C10_counterexample :
    mse_u 8 [0] [16] = 0 ∧ claimedMSE 8 [0] [16] = 57600 ∧
      mse_u 8 [0] [16] ≠ claimedMSE 8 [0] [16] := by
  norm_num [mse_u, claimedMSE, umean, sq_wrap, sub_wrap]

theorem C10_mse_wraps_witness :
    ([0] : List ℕ).length = ([16] : List ℕ).length ∧
      (mse_u 8 [0] [16] =
        (((List.zipWith (fun (a b : ℕ) => ((a : ℤ) - (b : ℤ)) ^ 2 % (2 ^ 8 : ℤ))
            [0] [16]).sum : ℤ) : ℚ) / ([0] : List ℕ).length
      ∧ (∀ a b : ℕ, a < 2 ^ 8 → b < 2 ^ 8 → a < b →
          (sub_wrap 8 a b : ℤ) = (a : ℤ) - (b : ℤ) + 2 ^ 8)
      ∧ mse_u 8 [0] [16] ≠ trueMSE [0] [16]) :=
  ⟨rfl, C10_mse_wraps 8 [0] [16] rfl⟩

/-! ### Adaptive thresholding (claim C4) -/

/-- numpy's broadcast comparison `volume[i] > local_thresh`: elementwise
greater-than of a slice against its per-pixel threshold map. -/
def gtSlice (s t : Slice2) : List (List Bool) :=
  List.zipWith (fun row trow => List.zipWith (fun a b => decide (b < a)) row trow) s t

/-- `adaptive_threshold_3d` from the notebook.  The loop fills `binary[i]` with
`volume[i] > filters.threshold_local(volume[i], block_size, offset, method)`; the
library call receives only the single slice `volume[i]` (its other arguments are the
fixed scalars `block_size`, `offset`, `method`), so it is abstracted as a function
`local_thresh` from a slice to its threshold map. -/
def adaptive_threshold_3d (local_thresh : Slice2 → Slice2) (volume : List Slice2) :
    List (List (List Bool)) :=
  volume.map (fun s => gtSlice s (local_thresh s))

/-- C4: slice i of the adaptive-thresholding output depends only on slice i of the
input — for every per-slice threshold function, if two volumes agree on slice i then
the outputs agree on slice i (no cross-slice coupling). -/
theorem C4_adaptive_threshold_slice_local (local_thresh : Slice2 → Slice2)
    (v1 v2 : List Slice2) (i : ℕ) (h : v1[i]? = v2[i]?) :
    (adaptive_threshold_3d local_thresh v1)[i]? =
      (adaptive_threshold_3d local_thresh v2)[i]? := by
  unfold adaptive_threshold_3d
  rw [List.getElem?_map, List.getElem?_map, h]

theorem C4_witness :
    ([[[1]], [[2]]] : List Slice2)[0]? = ([[[1]], [[3]]] : List Slice2)[0]? ∧
      (adaptive_threshold_3d (fun s => map2d (fun _ => 1/2) s) [[[1]], [[2]]])[0]? =
        (adaptive_threshold_3d (fun s => map2d (fun _ => 1/2) s) [[[1]], [[3]]])[0]? :=
  ⟨rfl, C4_adaptive_threshold_slice_local (fun s => map2d (fun _ => 1/2) s)
    [[[1]], [[2]]] [[[1]], [[3]]] 0 rfl⟩

/-! ### Denoising filters (claims C7 and C8)

The seven filters the notebook applies are scipy.ndimage calls, not repository code;
they are modelled from the spec: each output voxel is a statistic of the sliding cubic
neighborhood centred at that voxel, gathered with the library's default reflect
boundary handling, and the output is allocated with the input's shape. -/

/-- A 3D volume of float samples. -/
abbrev Vol := List (List (List ℚ))

/-- Depth of a volume. -/
def dimD (v : Vol) : ℕ := v.length

/-- Height of a volume (length of the first slice). -/
def dimH (v : Vol) : ℕ := (v[0]?.getD []).length

/-- Width of a volume (length of the first row of the first slice). -/
def dimW (v : Vol) : ℕ := ((v[0]?.getD [])[0]?.getD []).length

/-- Reflect an out-of-range index back into `[0, n)` (ndimage's default `reflect`
boundary mode), with a final clamp so the function is total. -/
def reflectIdx (n : ℕ) (i : ℤ) : ℕ :=
  let j : ℤ := if i < 0 then -i - 1 else i
  let j' : ℤ := if (n : ℤ) ≤ j then 2 * (n : ℤ) - 1 - j else j
  (min (max j' 0) ((n : ℤ) - 1)).toNat

/-- Sample a volume at a coordinate (0 when out of range; the filters only sample
in-range coordinates). -/
def getVoxel (v : Vol) (z y x : ℕ) : ℚ :=
  ((((v[z]?.getD [])[y]?.getD [])[x]?).getD 0)

/-- Modelled from the spec: the sliding cubic neighborhood of side `sz` centred at
`(z, y, x)`, with reflect boundary handling. -/
def neighborhood (sz : ℕ) (v : Vol) (z y x : ℕ) : List ℚ :=
  (List.range sz).flatMap (fun (a : ℕ) =>
    (List.range sz).flatMap (fun (b : ℕ) =>
      (List.range sz).map (fun (c : ℕ) =>
        getVoxel v (reflectIdx (dimD v) ((z : ℤ) + (a : ℤ) - ((sz / 2 : ℕ) : ℤ)))
                   (reflectIdx (dimH v) ((y : ℤ) + (b : ℤ) - ((sz / 2 : ℕ) : ℤ)))
                   (reflectIdx (dimW v) ((x : ℤ) + (c : ℤ) - ((sz / 2 : ℕ) : ℤ))))))

/-- Modelled from the spec: a neighborhood filter recomputes every voxel as a statistic
of the cubic neighborhood centred there; the output is a new volume of the input's
shape. -/
def windowFilter (stat : List ℚ → ℚ) (sz : ℕ) (v : Vol) : Vol :=
  (List.range (dimD v)).map (fun z =>
    (List.range (dimH v)).map (fun y =>
      (List.range (dimW v)).map (fun x => stat (neighborhood sz v z y x))))

/-- The k-th smallest value of a list (index clamped so the selection is total). -/
def sortedGet (xs : List ℚ) (k : ℕ) : ℚ :=
  ((xs.mergeSort (fun a b => decide (a ≤ b)))[min k (xs.length - 1)]?).getD 0

/-- Weighted sum of samples against a kernel. -/
def dotK (ws xs : List ℚ) : ℚ := (List.zipWith (fun wv xv => wv * xv) ws xs).sum

/-- Modelled from the spec: the separable 3D kernel of a 1D Gaussian weight list. -/
def kernel3 (ws : List ℚ) : List ℚ :=
  ws.flatMap (fun a => ws.flatMap (fun b => ws.map (fun c => a * b * c)))

/-- Modelled from the spec: `ndimage.gaussian_filter` — Gaussian-weighted average over
the cubic neighborhood, the (normalised, truncated) kernel given as a 1D weight list. -/
def gaussian_filter (ws : List ℚ) (v : Vol) : Vol :=
  windowFilter (fun xs => dotK (kernel3 ws) xs) ws.length v

/-- Modelled from the spec: `ndimage.median_filter` — median of the neighborhood. -/
def median_filter (sz : ℕ) (v : Vol) : Vol :=
  windowFilter (fun xs => sortedGet xs (xs.length / 2)) sz v

/-- Modelled from the spec: `ndimage.uniform_filter` — mean of the neighborhood. -/
def uniform_filter (sz : ℕ) (v : Vol) : Vol := windowFilter lmean sz v

/-- Modelled from the spec: `ndimage.maximum_filter` — maximum of the neighborhood. -/
def maximum_filter (sz : ℕ) (v : Vol) : Vol :=
  windowFilter (fun xs => sortedGet xs (xs.length - 1)) sz v

/-- Modelled from the spec: `ndimage.minimum_filter` — minimum of the neighborhood. -/
def minimum_filter (sz : ℕ) (v : Vol) : Vol :=
  windowFilter (fun xs => sortedGet xs 0) sz v

/-- Modelled from the spec: `ndimage.percentile_filter` — the p-th percentile of the
neighborhood, by rank selection. -/
def percentile_filter (p : ℚ) (sz : ℕ) (v : Vol) : Vol :=
  windowFilter (fun xs => sortedGet xs (⌊p * ((xs.length - 1 : ℕ) : ℚ) / 100⌋.toNat) ) sz v

/-- Modelled from the spec: `ndimage.rank_filter` — the k-th smallest value of the
neighborhood. -/
def rank_filter (k sz : ℕ) (v : Vol) : Vol :=
  windowFilter (fun xs => sortedGet xs k) sz v

/-- The volume is a rectangular `d × h × w` array. -/
def IsRect (v : Vol) (d h w : ℕ) : Prop :=
  v.length = d ∧ ∀ s ∈ v, s.length = h ∧ ∀ r ∈ s, r.length = w

/-- Every voxel of the volume equals `c`. -/
def AllVox (v : Vol) (c : ℚ) : Prop := ∀ s ∈ v, ∀ r ∈ s, ∀ x ∈ r, x = c

theorem reflectIdx_lt (n : ℕ) (i : ℤ) (hn : 0 < n) : reflectIdx n i < n := by
  unfold reflectIdx
  have h1 : ∀ j' : ℤ, (min (max j' 0) ((n : ℤ) - 1)).toNat < n := by
    intro j'
    have h2 : min (max j' 0) ((n : ℤ) - 1) ≤ (n : ℤ) - 1 := min_le_right _ _
    omega
  exact h1 _

theorem dimH_eq {v : Vol} {d h w : ℕ} (hrect : IsRect v d h w) (h0 : 0 < v.length) :
    dimH v = h := by
  unfold dimH
  simp only [List.getElem?_eq_getElem h0, Option.getD_some]
  exact (hrect.2 _ (List.getElem_mem h0)).1

theorem dimW_eq {v : Vol} {d h w : ℕ} (hrect : IsRect v d h w) (h0 : 0 < v.length)
    (hh : 0 < dimH v) : dimW v = w := by
  have hh' : 0 < (v[0]).length := by
    unfold dimH at hh
    simp only [List.getElem?_eq_getElem h0, Option.getD_some] at hh
    exact hh
  unfold dimW
  simp only [List.getElem?_eq_getElem h0, Option.getD_some,
    List.getElem?_eq_getElem hh', Option.getD_some]
  exact (hrect.2 _ (List.getElem_mem h0)).2 _ (List.getElem_mem hh')

theorem getVoxel_const {v : Vol} {c : ℚ} {d h w : ℕ} (hrect : IsRect v d h w)
    (hall : AllVox v c) {z y x : ℕ} (hz : z < v.length) (hy : y < dimH v)
    (hx : x < dimW v) : getVoxel v z y x = c := by
  have h0 : 0 < v.length := lt_of_le_of_lt (Nat.zero_le z) hz
  have hH : dimH v = h := dimH_eq hrect h0
  have hW : dimW v = w := dimW_eq hrect h0 (lt_of_le_of_lt (Nat.zero_le y) hy)
  have hsz : v[z] ∈ v := List.getElem_mem hz
  have hylt : y < (v[z]).length := by
    rw [(hrect.2 _ hsz).1, ← hH]
    exact hy
  have hrmem : (v[z])[y] ∈ v[z] := List.getElem_mem hylt
  have hxlt : x < ((v[z])[y]).length := by
    rw [(hrect.2 _ hsz).2 _ hrmem, ← hW]
    exact hx
  unfold getVoxel
  simp only [List.getElem?_eq_getElem hz, Option.getD_some,
    List.getElem?_eq_getElem hylt, List.getElem?_eq_getElem hxlt]
  exact hall _ hsz _ hrmem _ (List.getElem_mem hxlt)

theorem length_flatMap_const {α β : Type} (l : List α) (f : α → List β) (k : ℕ)
    (hf : ∀ a ∈ l, (f a).length = k) : (l.flatMap f).length = l.length * k := by
  induction l with
  | nil => simp
  | cons a l ih =>
    simp only [List.flatMap_cons, List.length_append, List.length_cons,
      hf a (List.mem_cons_self a l), ih (fun b hb => hf b (List.mem_cons_of_mem a hb))]
    ring

theorem length_double_flatMap {α : Type} (n : ℕ) (g : ℕ → ℕ → α) :
    ((List.range n).flatMap (fun b => (List.range n).map (fun c => g b c))).length
      = n * n := by
  rw [length_flatMap_const (List.range n) (fun b => (List.range n).map (fun c => g b c)) n
    (fun b _ => by simp), List.length_range]

theorem length_triple_flatMap {α : Type} (n : ℕ) (g : ℕ → ℕ → ℕ → α) :
    ((List.range n).flatMap (fun a => (List.range n).flatMap (fun b =>
      (List.range n).map (fun c => g a b c)))).length = n * n * n := by
  rw [length_flatMap_const (List.range n)
    (fun a => (List.range n).flatMap (fun b => (List.range n).map (fun c => g a b c)))
    (n * n) (fun a _ => length_double_flatMap n (g a)), List.length_range]
  ring

theorem length_neighborhood (sz : ℕ) (v : Vol) (z y x : ℕ) :
    (neighborhood sz v z y x).length = sz * sz * sz := by
  unfold neighborhood
  exact length_triple_flatMap sz (fun a b e =>
    getVoxel v (reflectIdx (dimD v) ((z : ℤ) + (a : ℤ) - ((sz / 2 : ℕ) : ℤ)))
               (reflectIdx (dimH v) ((y : ℤ) + (b : ℤ) - ((sz / 2 : ℕ) : ℤ)))
               (reflectIdx (dimW v) ((x : ℤ) + (e : ℤ) - ((sz / 2 : ℕ) : ℤ))))

theorem neighborhood_const {v : Vol} {c : ℚ} {d h w : ℕ} (hrect : IsRect v d h w)
    (hall : AllVox v c) (sz z y x : ℕ) (hz : z < dimD v) (hy : y < dimH v)
    (hx : x < dimW v) :
    neighborhood sz v z y x = List.replicate (sz * sz * sz) c := by
  rw [List.eq_replicate_iff]
  refine ⟨length_neighborhood sz v z y x, ?_⟩
  intro q hq
  unfold neighborhood at hq
  rcases List.mem_flatMap.1 hq with ⟨a, _, hq2⟩
  rcases List.mem_flatMap.1 hq2 with ⟨b, _, hq3⟩
  rcases List.mem_map.1 hq3 with ⟨e, _, rfl⟩
  exact getVoxel_const hrect hall
    (reflectIdx_lt _ _ (lt_of_le_of_lt (Nat.zero_le z) hz))
    (reflectIdx_lt _ _ (lt_of_le_of_lt (Nat.zero_le y) hy))
    (reflectIdx_lt _ _ (lt_of_le_of_lt (Nat.zero_le x) hx))

theorem isRect_windowFilter (stat : List ℚ → ℚ) (sz : ℕ) {v : Vol} {d h w : ℕ}
    (hrect : IsRect v d h w) : IsRect (windowFilter stat sz v) d h w := by
  refine ⟨by simp [windowFilter, dimD, hrect.1], ?_⟩
  intro s hs
  rcases List.mem_map.1 hs with ⟨z, hzmem, rfl⟩
  have hz : z < dimD v := List.mem_range.1 hzmem
  have h0 : 0 < v.length := lt_of_le_of_lt (Nat.zero_le z) hz
  refine ⟨by simp [List.length_map, List.length_range, dimH_eq hrect h0], ?_⟩
  intro r hr
  rcases List.mem_map.1 hr with ⟨y, hymem, rfl⟩
  have hy : y < dimH v := List.mem_range.1 hymem
  simp [List.length_map, List.length_range,
    dimW_eq hrect h0 (lt_of_le_of_lt (Nat.zero_le y) hy)]

theorem allVox_windowFilter (stat : List ℚ → ℚ) (sz : ℕ) {v : Vol} {c : ℚ} {d h w : ℕ}
    (hrect : IsRect v d h w) (hall : AllVox v c)
    (hstat : stat (List.replicate (sz * sz * sz) c) = c) :
    AllVox (windowFilter stat sz v) c := by
  intro s hs r hr q hq
  rcases List.mem_map.1 hs with ⟨z, hzmem, rfl⟩
  rcases List.mem_map.1 hr with ⟨y, hymem, rfl⟩
  rcases List.mem_map.1 hq with ⟨x, hxmem, rfl⟩
  rw [neighborhood_const hrect hall sz z y x (List.mem_range.1 hzmem)
    (List.mem_range.1 hymem) (List.mem_range.1 hxmem)]
  exact hstat

theorem lmean_replicate (m : ℕ) (c : ℚ) (hm : 0 < m) :
    lmean (List.replicate m c) = c := by
  unfold lmean
  rw [List.sum_replicate, List.length_replicate, nsmul_eq_mul]
  exact mul_div_cancel_left₀ _ (by exact_mod_cast hm.ne')

theorem sortedGet_replicate (m : ℕ) (c : ℚ) (k : ℕ) (hm : 0 < m) :
    sortedGet (List.replicate m c) k = c := by
  unfold sortedGet
  have hidx : min k ((List.replicate m c).length - 1)
      < ((List.replicate m c).mergeSort (fun a b => decide (a ≤ b))).length := by
    rw [List.length_mergeSort, List.length_replicate]
    omega
  rw [List.getElem?_eq_getElem hidx, Option.getD_some]
  have hmem := List.getElem_mem hidx
  rw [List.mem_mergeSort] at hmem
  exact List.eq_of_mem_replicate hmem

theorem zipWith_mul_replicate (ks : List ℚ) (c : ℚ) :
    List.zipWith (fun wv xv => wv * xv) ks (List.replicate ks.length c)
      = ks.map (fun a => a * c) := by
  induction ks with
  | nil => rfl
  | cons a ks ih => simp [List.replicate_succ, ih]

theorem sum_map_mul_right' (l : List ℚ) (r : ℚ) :
    (l.map (fun a => a * r)).sum = l.sum * r := by
  induction l with
  | nil => simp
  | cons a l ih =>
    simp only [List.map_cons, List.sum_cons, ih]
    ring

theorem sum_map_mul_left' (l : List ℚ) (r : ℚ) :
    (l.map (fun a => r * a)).sum = r * l.sum := by
  induction l with
  | nil => simp
  | cons a l ih =>
    simp only [List.map_cons, List.sum_cons, ih]
    ring

theorem sum_flatMap' {α : Type} (l : List α) (f : α → List ℚ) :
    (l.flatMap f).sum = (l.map (fun a => (f a).sum)).sum := by
  induction l with
  | nil => rfl
  | cons a l ih => simp [ih]

theorem length_kernel3 (ws : List ℚ) :
    (kernel3 ws).length = ws.length * ws.length * ws.length := by
  unfold kernel3
  rw [length_flatMap_const _ _ (ws.length * ws.length) (fun a _ => by
    rw [length_flatMap_const _ _ ws.length (fun b _ => by
      simp [List.length_map])])]
  ring

theorem sum_flatMap_double (l2 l3 : List ℚ) (a : ℚ) :
    (l2.flatMap (fun b => l3.map (fun e => a * b * e))).sum = a * l2.sum * l3.sum := by
  induction l2 with
  | nil => simp
  | cons b l2 ih =>
    simp only [List.flatMap_cons, List.sum_append, List.sum_cons, ih,
      sum_map_mul_left' l3 (a * b)]
    ring

theorem sum_triple_flatMap (l1 l2 l3 : List ℚ) :
    (l1.flatMap (fun a => l2.flatMap (fun b => l3.map (fun e => a * b * e)))).sum
      = l1.sum * l2.sum * l3.sum := by
  induction l1 with
  | nil => simp
  | cons a l1 ih =>
    simp only [List.flatMap_cons, List.sum_append, List.sum_cons, ih,
      sum_flatMap_double l2 l3 a]
    ring

theorem sum_kernel3 (ws : List ℚ) :
    (kernel3 ws).sum = ws.sum * ws.sum * ws.sum := sum_triple_flatMap ws ws ws

theorem dotK_kernel3_replicate (ws : List ℚ) (c : ℚ) (hsum : ws.sum = 1) :
    dotK (kernel3 ws) (List.replicate (ws.length * ws.length * ws.length) c) = c := by
  unfold dotK
  rw [← length_kernel3 ws, zipWith_mul_replicate, sum_map_mul_right', sum_kernel3, hsum]
  ring

/-- C7: every denoising filter of the pipeline — Gaussian, median, uniform/mean,
maximum, minimum, percentile and rank — produces an output of exactly the input
volume's shape. -/
theorem C7_filters_preserve_shape (v : Vol) (d h w : ℕ) (hrect : IsRect v d h w)
    (ws : List ℚ) (sz k : ℕ) (p : ℚ) :
    IsRect (gaussian_filter ws v) d h w ∧ IsRect (median_filter sz v) d h w ∧
    IsRect (uniform_filter sz v) d h w ∧ IsRect (maximum_filter sz v) d h w ∧
    IsRect (minimum_filter sz v) d h w ∧ IsRect (percentile_filter p sz v) d h w ∧
    IsRect (rank_filter k sz v) d h w :=
  ⟨isRect_windowFilter _ _ hrect, isRect_windowFilter _ _ hrect,
   isRect_windowFilter _ _ hrect, isRect_windowFilter _ _ hrect,
   isRect_windowFilter _ _ hrect, isRect_windowFilter _ _ hrect,
   isRect_windowFilter _ _ hrect⟩

theorem C7_witness :
    IsRect [[[0]]] 1 1 1 ∧
      (IsRect (gaussian_filter [1] [[[0]]]) 1 1 1 ∧
       IsRect (median_filter 3 [[[0]]]) 1 1 1 ∧
       IsRect (uniform_filter 3 [[[0]]]) 1 1 1 ∧
       IsRect (maximum_filter 3 [[[0]]]) 1 1 1 ∧
       IsRect (minimum_filter 3 [[[0]]]) 1 1 1 ∧
       IsRect (percentile_filter 75 3 [[[0]]]) 1 1 1 ∧
       IsRect (rank_filter 5 3 [[[0]]]) 1 1 1) :=
  ⟨⟨rfl, by simp [IsRect]⟩, C7_filters_preserve_shape [[[0]]] 1 1 1 ⟨rfl, by simp⟩ [1] 3 5 75⟩

/-- C8: on a constant-valued volume every filter of the pipeline returns the constant
everywhere — each statistic of a constant window degenerates to the constant (the
Gaussian case needs its kernel weights to sum to 1, which the library's normalised
kernel satisfies). -/
theorem C8_filters_preserve_constant (v : Vol) (d h w : ℕ) (c : ℚ)
    (hrect : IsRect v d h w) (hall : AllVox v c)
    (ws : List ℚ) (hws : ws.sum = 1)
    (sz : ℕ) (hsz : 0 < sz) (k : ℕ) (p : ℚ) :
    AllVox (gaussian_filter ws v) c ∧ AllVox (median_filter sz v) c ∧
    AllVox (uniform_filter sz v) c ∧ AllVox (maximum_filter sz v) c ∧
    AllVox (minimum_filter sz v) c ∧ AllVox (percentile_filter p sz v) c ∧
    AllVox (rank_filter k sz v) c := by
  have hm : 0 < sz * sz * sz := by positivity
  refine ⟨?_, ?_, ?_, ?_, ?_, ?_, ?_⟩
  · exact allVox_windowFilter _ _ hrect hall (dotK_kernel3_replicate ws c hws)
  · exact allVox_windowFilter _ _ hrect hall (sortedGet_replicate _ c _ hm)
  · exact allVox_windowFilter _ _ hrect hall (lmean_replicate _ c hm)
  · exact allVox_windowFilter _ _ hrect hall (sortedGet_replicate _ c _ hm)
  · exact allVox_windowFilter _ _ hrect hall (sortedGet_replicate _ c _ hm)
  · exact allVox_windowFilter _ _ hrect hall (sortedGet_replicate _ c _ hm)
  · exact allVox_windowFilter _ _ hrect hall (sortedGet_replicate _ c _ hm)

theorem C8_witness :
    (IsRect [[[5]]] 1 1 1 ∧ AllVox [[[5]]] 5 ∧ ([1] : List ℚ).sum = 1 ∧ 0 < 3) ∧
      (AllVox (gaussian_filter [1] [[[5]]]) 5 ∧ AllVox (median_filter 3 [[[5]]]) 5 ∧
       AllVox (uniform_filter 3 [[[5]]]) 5 ∧ AllVox (maximum_filter 3 [[[5]]]) 5 ∧
       AllVox (minimum_filter 3 [[[5]]]) 5 ∧ AllVox (percentile_filter 75 3 [[[5]]]) 5 ∧
       AllVox (rank_filter 5 3 [[[5]]]) 5) :=
  ⟨⟨⟨rfl, by simp⟩, by simp [AllVox], by simp, by simp⟩,
    C8_filters_preserve_constant [[[5]]] 1 1 1 5 ⟨rfl, by simp⟩ (by simp [AllVox])
      [1] (by simp) 3 (by simp) 5 75⟩

/-! ### Binary cleanup (claims C5 and C6)

`morphology.remove_small_objects` and `ndimage.binary_fill_holes` are library calls;
they are modelled from the spec over finite voxel grids: connected components under
face (6-)connectivity, removal of components below the voxel-count threshold, and
filling of background regions with no background path to the volume's border.
Connectivity is computed by a saturating breadth-first expansion (`d * h * w` steps
suffice on a `d × h × w` grid). -/

/-- A voxel coordinate of a `d × h × w` binary volume. -/
abbrev Cell (d h w : ℕ) := Fin d × Fin h × Fin w

/-- Face adjacency (6-connectivity): the coordinates differ by one in exactly one
axis. -/
def adjacent {d h w : ℕ} (a b : Cell d h w) : Bool :=
  decide (((a.1.val : ℤ) - (b.1.val : ℤ)).natAbs + ((a.2.1.val : ℤ) - (b.2.1.val : ℤ)).natAbs
    + ((a.2.2.val : ℤ) - (b.2.2.val : ℤ)).natAbs = 1)

/-- One breadth-first expansion step: add every cell satisfying `ok` adjacent to the
set. -/
def bfsStep {d h w : ℕ} (ok : Cell d h w → Bool) (s : Finset (Cell d h w)) :
    Finset (Cell d h w) :=
  s ∪ Finset.univ.filter (fun c => ok c = true ∧ ∃ b ∈ s, adjacent b c = true)

/-- The set of cells satisfying `ok` connected to the start set through `ok` cells:
the breadth-first expansion saturated by running it once per cell of the grid. -/
def reachFrom {d h w : ℕ} (ok : Cell d h w → Bool) (start : Finset (Cell d h w)) :
    Finset (Cell d h w) :=
  (bfsStep ok)^[d * h * w] (start.filter (fun c => ok c = true))

/-- The connected component of the foreground containing `x` (empty when `x` is
background). -/
def componentOf {d h w : ℕ} (v : Cell d h w → Bool) (x : Cell d h w) :
    Finset (Cell d h w) :=
  reachFrom v {x}

/-- Modelled from the spec: `morphology.remove_small_objects` — remove the connected
components whose voxel count is below the threshold, keeping those of at least
`min_size` voxels. -/
def remove_small_objects {d h w : ℕ} (v : Cell d h w → Bool) (min_size : ℕ) :
    Cell d h w → Bool :=
  fun c => v c && decide (min_size ≤ (componentOf v c).card)

/-- The cells on the outer boundary of the grid. -/
def borderCells (d h w : ℕ) : Finset (Cell d h w) :=
  Finset.univ.filter (fun c => c.1.val = 0 ∨ c.1.val = d - 1 ∨ c.2.1.val = 0 ∨
    c.2.1.val = h - 1 ∨ c.2.2.val = 0 ∨ c.2.2.val = w - 1)

/-- The background cells connected to the border through background. -/
def bgReach {d h w : ℕ} (v : Cell d h w → Bool) : Finset (Cell d h w) :=
  reachFrom (fun c => !v c) (borderCells d h w)

/-- Modelled from the spec: `ndimage.binary_fill_holes` — a cell is foreground in the
output when it was foreground in the input or is an interior hole: background with no
background path to the border. -/
def binary_fill_holes {d h w : ℕ} (v : Cell d h w → Bool) : Cell d h w → Bool :=
  fun c => v c || decide (c ∉ bgReach v)

/-- `c` is an interior hole of `v`: background with no background path to the
border. -/
def isHole {d h w : ℕ} (v : Cell d h w → Bool) (c : Cell d h w) : Prop :=
  v c = false ∧ c ∉ bgReach v

/-- The notebook's binary cleanup: remove small objects, then fill holes. -/
def cleanupVolume {d h w : ℕ} (v : Cell d h w → Bool) (min_size : ℕ) :
    Cell d h w → Bool :=
  binary_fill_holes (remove_small_objects v min_size)

theorem mem_bfsStep {d h w : ℕ} {ok : Cell d h w → Bool} {s : Finset (Cell d h w)}
    {c : Cell d h w} :
    c ∈ bfsStep ok s ↔ c ∈ s ∨ (ok c = true ∧ ∃ b ∈ s, adjacent b c = true) := by
  simp [bfsStep]

theorem subset_bfsStep {d h w : ℕ} (ok : Cell d h w → Bool) (s : Finset (Cell d h w)) :
    s ⊆ bfsStep ok s :=
  Finset.subset_union_left

theorem bfsStep_mono {d h w : ℕ} (ok : Cell d h w → Bool) {s t : Finset (Cell d h w)}
    (hst : s ⊆ t) : bfsStep ok s ⊆ bfsStep ok t := by
  intro c hc
  rw [mem_bfsStep] at hc ⊢
  rcases hc with hcs | ⟨hok, b, hb, hadj⟩
  · exact Or.inl (hst hcs)
  · exact Or.inr ⟨hok, b, hst hb, hadj⟩

theorem iterate_bfsStep_mono {d h w : ℕ} (ok : Cell d h w → Bool)
    {s t : Finset (Cell d h w)} (hst : s ⊆ t) (k : ℕ) :
    (bfsStep ok)^[k] s ⊆ (bfsStep ok)^[k] t := by
  induction k with
  | zero => simpa
  | succ k ih =>
    rw [Function.iterate_succ_apply', Function.iterate_succ_apply']
    exact bfsStep_mono ok ih

theorem iterate_bfsStep_le {d h w : ℕ} (ok : Cell d h w → Bool)
    (s : Finset (Cell d h w)) {k n : ℕ} (hkn : k ≤ n) :
    (bfsStep ok)^[k] s ⊆ (bfsStep ok)^[n] s := by
  induction n with
  | zero =>
    have hk0 : k = 0 := Nat.le_zero.1 hkn
    subst hk0
    exact Finset.Subset.refl _
  | succ n ih =>
    rcases Nat.eq_or_lt_of_le hkn with heq | hlt
    · subst heq
      exact Finset.Subset.refl _
    · refine Finset.Subset.trans (ih (Nat.lt_succ_iff.1 hlt)) ?_
      rw [Function.iterate_succ_apply']
      exact subset_bfsStep ok _

theorem iterate_restrict {d h w : ℕ} (ok : Cell d h w → Bool)
    (start : Finset (Cell d h w)) (N : ℕ) :
    ∀ k ≤ N, (bfsStep (fun c => ok c && decide (c ∈ (bfsStep ok)^[N] start)))^[k] start
      = (bfsStep ok)^[k] start := by
  intro k
  induction k with
  | zero => intro _; rfl
  | succ k ih =>
    intro hk
    rw [Function.iterate_succ_apply', Function.iterate_succ_apply',
      ih (Nat.le_of_succ_le hk)]
    ext c
    rw [mem_bfsStep, mem_bfsStep]
    constructor
    · rintro (hcs | ⟨hok, b, hb, hadj⟩)
      · exact Or.inl hcs
      · rw [Bool.and_eq_true] at hok
        exact Or.inr ⟨hok.1, b, hb, hadj⟩
    · rintro (hcs | ⟨hok, b, hb, hadj⟩)
      · exact Or.inl hcs
      · refine Or.inr ⟨?_, b, hb, hadj⟩
        have hc1 : c ∈ (bfsStep ok)^[k + 1] start := by
          rw [Function.iterate_succ_apply']
          exact mem_bfsStep.2 (Or.inr ⟨hok, b, hb, hadj⟩)
        have hc2 : c ∈ (bfsStep ok)^[N] start := iterate_bfsStep_le ok start hk hc1
        rw [Bool.and_eq_true]
        exact ⟨hok, decide_eq_true hc2⟩

theorem reachFrom_restrict {d h w : ℕ} (ok : Cell d h w → Bool)
    (start : Finset (Cell d h w)) :
    reachFrom (fun c => ok c && decide (c ∈ reachFrom ok start)) start
      = reachFrom ok start := by
  unfold reachFrom
  have hfilter : start.filter (fun c => (ok c && decide (c ∈ (bfsStep ok)^[d * h * w]
        (start.filter (fun c => ok c = true)))) = true)
      = start.filter (fun c => ok c = true) := by
    ext b
    simp only [Finset.mem_filter, Bool.and_eq_true, decide_eq_true_eq]
    constructor
    · rintro ⟨hb, hbok, _⟩
      exact ⟨hb, hbok⟩
    · rintro ⟨hb, hbok⟩
      refine ⟨hb, hbok, ?_⟩
      exact iterate_bfsStep_le ok _ (Nat.zero_le _) (Finset.mem_filter.2 ⟨hb, hbok⟩)
  rw [hfilter]
  exact iterate_restrict ok _ _ _ le_rfl

theorem bg_of_fill {d h w : ℕ} (v : Cell d h w → Bool) :
    (fun c => !(binary_fill_holes v c))
      = (fun c => (!v c) && decide (c ∈ bgReach v)) := by
  funext c
  unfold binary_fill_holes
  rw [Bool.not_or, decide_not, Bool.not_not]

/-- C6: hole filling is idempotent — filling the holes of an already-filled volume
changes nothing, because the background of the filled volume is exactly the set of
background cells reachable from the border, and the breadth-first search restricted to
that set finds the same set again. -/
theorem C6_fill_holes_idempotent {d h w : ℕ} (v : Cell d h w → Bool) :
    binary_fill_holes (binary_fill_holes v) = binary_fill_holes v := by
  have hR : bgReach (binary_fill_holes v) = bgReach v := by
    unfold bgReach
    rw [bg_of_fill v]
    exact reachFrom_restrict (fun c => !v c) (borderCells d h w)
  funext c
  show (binary_fill_holes v c || decide (c ∉ bgReach (binary_fill_holes v)))
      = binary_fill_holes v c
  rw [hR]
  show ((v c || decide (c ∉ bgReach v)) || decide (c ∉ bgReach v))
      = (v c || decide (c ∉ bgReach v))
  rw [Bool.or_assoc, Bool.or_self]

/-- C5: on a binary volume whose foreground consists of exactly two connected
components, one smaller and one larger than the size threshold, the cleanup keeps
exactly the larger component: small-object removal leaves precisely the large
component, the large component survives hole filling, and every other output voxel
can only be an interior hole of the remaining component (filled by design). -/
theorem C5_cleanup_keeps_large {d h w : ℕ} (v : Cell d h w → Bool) (n : ℕ)
    (A B : Finset (Cell d h w))
    (hfg : ∀ c, v c = true ↔ c ∈ A ∨ c ∈ B)
    (hcompA : ∀ c ∈ A, componentOf v c = A)
    (hcompB : ∀ c ∈ B, componentOf v c = B)
    (hsmall : A.card < n) (hbig : n < B.card) :
    (∀ c, remove_small_objects v n c = true ↔ c ∈ B)
    ∧ (∀ c ∈ B, cleanupVolume v n c = true)
    ∧ (∀ c, cleanupVolume v n c = true →
        c ∈ B ∨ isHole (remove_small_objects v n) c) := by
  have h1 : ∀ c, remove_small_objects v n c = true ↔ c ∈ B := by
    intro c
    unfold remove_small_objects
    rw [Bool.and_eq_true, decide_eq_true_eq]
    constructor
    · rintro ⟨hv, hcard⟩
      rcases (hfg c).1 hv with hA | hB
      · rw [hcompA c hA] at hcard
        omega
      · exact hB
    · intro hB
      refine ⟨(hfg c).2 (Or.inr hB), ?_⟩
      rw [hcompB c hB]
      omega
  refine ⟨h1, ?_, ?_⟩
  · intro c hB
    show (remove_small_objects v n c
        || decide (c ∉ bgReach (remove_small_objects v n))) = true
    rw [(h1 c).2 hB, Bool.true_or]
  · intro c hc
    rw [show cleanupVolume v n c
          = (remove_small_objects v n c
              || decide (c ∉ bgReach (remove_small_objects v n))) from rfl,
      Bool.or_eq_true, decide_eq_true_eq] at hc
    rcases hc with hu | hnr
    · exact Or.inl ((h1 c).1 hu)
    · by_cases hu : remove_small_objects v n c = true
      · exact Or.inl ((h1 c).1 hu)
      · exact Or.inr ⟨Bool.not_eq_true _ ▸ eq_false_of_ne_true hu, hnr⟩

/-- Witness volume for C5: a 1 × 1 × 5 line with foreground at positions 0, 2, 3, 4;
position 0 is an isolated one-voxel component, positions 2 to 4 form a three-voxel
component. -/
def wVol : Cell 1 1 5 → Bool := fun c => decide (c.2.2.val ≠ 1)

/-- The small component of the witness volume. -/
def wA : Finset (Cell 1 1 5) := {(0, 0, 0)}

/-- The large component of the witness volume. -/
def wB : Finset (Cell 1 1 5) := {(0, 0, 2), (0, 0, 3), (0, 0, 4)}

theorem C5_witness :
    ((∀ c, wVol c = true ↔ c ∈ wA ∨ c ∈ wB) ∧
      (∀ c ∈ wA, componentOf wVol c = wA) ∧ (∀ c ∈ wB, componentOf wVol c = wB) ∧
      wA.card < 2 ∧ 2 < wB.card) ∧
      ((∀ c, remove_small_objects wVol 2 c = true ↔ c ∈ wB)
        ∧ (∀ c ∈ wB, cleanupVolume wVol 2 c = true)
        ∧ (∀ c, cleanupVolume wVol 2 c = true →
            c ∈ wB ∨ isHole (remove_small_objects wVol 2) c)) :=
  ⟨⟨by decide, by decide, by decide, by decide, by decide⟩,
    C5_cleanup_keeps_large wVol 2 wA wB (by decide) (by decide) (by decide)
      (by decide) (by decide)⟩

/-! ### Global thresholding (claim C9)

`filters.threshold_otsu` and `filters.threshold_yen` are skimage calls; they are
modelled from the spec: scan the intensity histogram and select the scalar threshold
maximizing the inter-class variance (Otsu), or minimizing the (log of the) product of
the class variances (Yen; the logarithm is strictly monotone, so the minimiser of the
product is selected and the log-of-zero guard never has to evaluate a logarithm).
The scan runs over the integer intensity levels from the volume's minimum up to (but
excluding) its maximum, left to right, ties broken towards the earlier level. -/

/-- The smallest sample value of a volume (flattened to a list). -/
def vmin (xs : List ℕ) : ℕ := xs.foldr min (xs.headD 0)

/-- The largest sample value of a volume (flattened to a list). -/
def vmax (xs : List ℕ) : ℕ := xs.foldr max (xs.headD 0)

/-- The class of samples at or below the threshold. -/
def classLow (xs : List ℕ) (t : ℕ) : List ℕ := xs.filter (fun x => x ≤ t)

/-- The class of samples above the threshold (binarisation is `value > t`). -/
def classHigh (xs : List ℕ) (t : ℕ) : List ℕ := xs.filter (fun x => t < x)

/-- Modelled from the spec: the inter-class variance Otsu's method maximizes —
class weights times the squared difference of the class means. -/
def betweenVar (xs : List ℕ) (t : ℕ) : ℚ :=
  (((classLow xs t).length : ℚ) / xs.length) * (((classHigh xs t).length : ℚ) / xs.length)
    * (umean (classLow xs t) - umean (classHigh xs t)) ^ 2

/-- Modelled from the spec: the product of the class variances whose logarithm Yen's
method minimizes. -/
def classVarProd (xs : List ℕ) (t : ℕ) : ℚ := uvar (classLow xs t) * uvar (classHigh xs t)

/-- First maximiser of `f` over a candidate list, ties towards the earlier candidate
(a left-to-right histogram scan). -/
def argmaxFirst (f : ℕ → ℚ) : List ℕ → ℕ
  | [] => 0
  | [t] => t
  | t :: ts => if f (argmaxFirst f ts) ≤ f t then t else argmaxFirst f ts

/-- First minimiser of `f` over a candidate list, ties towards the earlier
candidate. -/
def argminFirst (f : ℕ → ℚ) : List ℕ → ℕ
  | [] => 0
  | [t] => t
  | t :: ts => if f t ≤ f (argminFirst f ts) then t else argminFirst f ts

/-- Modelled from the spec: Otsu's global threshold — scan the histogram levels and
select the threshold maximizing the inter-class variance. -/
def threshold_otsu (xs : List ℕ) : ℕ :=
  argmaxFirst (betweenVar xs) (List.range' (vmin xs) (vmax xs - vmin xs))

/-- Modelled from the spec: Yen's global threshold — scan the histogram levels and
select the threshold minimizing the product of the class variances. -/
def threshold_yen (xs : List ℕ) : ℕ :=
  argminFirst (classVarProd xs) (List.range' (vmin xs) (vmax xs - vmin xs))

theorem foldr_min_le_mem (l : List ℕ) (i : ℕ) : ∀ x ∈ l, l.foldr min i ≤ x := by
  induction l with
  | nil => intro x hx; cases hx
  | cons a l ih =>
    intro x hx
    rcases List.mem_cons.1 hx with rfl | hx
    · exact min_le_left _ _
    · exact le_trans (min_le_right _ _) (ih x hx)

theorem foldr_min_mem_or (l : List ℕ) (i : ℕ) :
    l.foldr min i = i ∨ l.foldr min i ∈ l := by
  induction l with
  | nil => exact Or.inl rfl
  | cons a l ih =>
    rcases le_total a (l.foldr min i) with hle | hle
    · simp only [List.foldr_cons]
      rw [min_eq_left hle]
      exact Or.inr (List.mem_cons_self a l)
    · simp only [List.foldr_cons]
      rw [min_eq_right hle]
      rcases ih with hi | hm
      · exact Or.inl hi
      · exact Or.inr (List.mem_cons_of_mem a hm)

theorem foldr_max_ge_mem (l : List ℕ) (i : ℕ) : ∀ x ∈ l, x ≤ l.foldr max i := by
  induction l with
  | nil => intro x hx; cases hx
  | cons a l ih =>
    intro x hx
    rcases List.mem_cons.1 hx with rfl | hx
    · exact le_max_left _ _
    · exact le_trans (ih x hx) (le_max_right _ _)

theorem foldr_max_mem_or (l : List ℕ) (i : ℕ) :
    l.foldr max i = i ∨ l.foldr max i ∈ l := by
  induction l with
  | nil => exact Or.inl rfl
  | cons a l ih =>
    rcases le_total a (l.foldr max i) with hle | hle
    · simp only [List.foldr_cons]
      rw [max_eq_right hle]
      rcases ih with hi | hm
      · exact Or.inl hi
      · exact Or.inr (List.mem_cons_of_mem a hm)
    · simp only [List.foldr_cons]
      rw [max_eq_left hle]
      exact Or.inr (List.mem_cons_self a l)

theorem vmin_le {xs : List ℕ} {x : ℕ} (hx : x ∈ xs) : vmin xs ≤ x :=
  foldr_min_le_mem xs _ x hx

theorem vmin_mem {xs : List ℕ} (hne : xs ≠ []) : vmin xs ∈ xs := by
  rcases foldr_min_mem_or xs (xs.headD 0) with hi | hm
  · rw [vmin, hi]
    cases xs with
    | nil => exact absurd rfl hne
    | cons a l => exact List.mem_cons_self a l
  · exact hm

theorem vmax_ge {xs : List ℕ} {x : ℕ} (hx : x ∈ xs) : x ≤ vmax xs :=
  foldr_max_ge_mem xs _ x hx

theorem vmax_mem {xs : List ℕ} (hne : xs ≠ []) : vmax xs ∈ xs := by
  rcases foldr_max_mem_or xs (xs.headD 0) with hi | hm
  · rw [vmax, hi]
    cases xs with
    | nil => exact absurd rfl hne
    | cons a l => exact List.mem_cons_self a l
  · exact hm

theorem argmaxFirst_mem (f : ℕ → ℚ) : ∀ l : List ℕ, l ≠ [] → argmaxFirst f l ∈ l
  | [], hne => absurd rfl hne
  | [t], _ => by simp [argmaxFirst]
  | t :: t' :: ts, _ => by
    show (if f (argmaxFirst f (t' :: ts)) ≤ f t then t else argmaxFirst f (t' :: ts))
        ∈ t :: t' :: ts
    split
    · exact List.mem_cons_self _ _
    · exact List.mem_cons_of_mem t (argmaxFirst_mem f (t' :: ts) (by simp))

theorem argminFirst_mem (f : ℕ → ℚ) : ∀ l : List ℕ, l ≠ [] → argminFirst f l ∈ l
  | [], hne => absurd rfl hne
  | [t], _ => by simp [argminFirst]
  | t :: t' :: ts, _ => by
    show (if f t ≤ f (argminFirst f (t' :: ts)) then t else argminFirst f (t' :: ts))
        ∈ t :: t' :: ts
    split
    · exact List.mem_cons_self _ _
    · exact List.mem_cons_of_mem t (argminFirst_mem f (t' :: ts) (by simp))

theorem argmaxFirst_const (f : ℕ → ℚ) (q : ℚ) :
    ∀ l : List ℕ, (∀ t ∈ l, f t = q) → argmaxFirst f l = l.headD 0
  | [], _ => rfl
  | [t], _ => rfl
  | t :: t' :: ts, hconst => by
    have h1 : f (argmaxFirst f (t' :: ts)) = q :=
      hconst _ (List.mem_cons_of_mem t (argmaxFirst_mem f (t' :: ts) (by simp)))
    have h2 : f t = q := hconst t (List.mem_cons_self t _)
    show (if f (argmaxFirst f (t' :: ts)) ≤ f t then t else argmaxFirst f (t' :: ts)) = t
    rw [h1, h2, if_pos le_rfl]

theorem argminFirst_const (f : ℕ → ℚ) (q : ℚ) :
    ∀ l : List ℕ, (∀ t ∈ l, f t = q) → argminFirst f l = l.headD 0
  | [], _ => rfl
  | [t], _ => rfl
  | t :: t' :: ts, hconst => by
    have h1 : f (argminFirst f (t' :: ts)) = q :=
      hconst _ (List.mem_cons_of_mem t (argminFirst_mem f (t' :: ts) (by simp)))
    have h2 : f t = q := hconst t (List.mem_cons_self t _)
    show (if f t ≤ f (argminFirst f (t' :: ts)) then t else argminFirst f (t' :: ts)) = t
    rw [h1, h2, if_pos le_rfl]

/-- C9 amended: for every volume whose samples form two clusters at exactly the
intensities 50 and 200 (both present), the modelled Otsu and Yen thresholds lie in the
half-open interval `[50, 200)` — at least 50 and strictly below 200 — and binarisation
by `value > threshold` puts the 50-cluster in the background and the 200-cluster in
the foreground.  The left end is attained (see the counterexample), so the thresholds
are not in general strictly above 50. -/
theorem C9_thresholds_separate (xs : List ℕ)
    (hvals : ∀ x ∈ xs, x = 50 ∨ x = 200) (h50 : 50 ∈ xs) (h200 : 200 ∈ xs) :
    (50 ≤ threshold_otsu xs ∧ threshold_otsu xs < 200 ∧
      ∀ x ∈ xs, (threshold_otsu xs < x ↔ x = 200)) ∧
    (50 ≤ threshold_yen xs ∧ threshold_yen xs < 200 ∧
      ∀ x ∈ xs, (threshold_yen xs < x ↔ x = 200)) := by
  have hne : xs ≠ [] := List.ne_nil_of_mem h50
  have hmin : vmin xs = 50 := by
    have h1 := vmin_le h50
    rcases hvals _ (vmin_mem hne) with h | h
    · exact h
    · omega
  have hmax : vmax xs = 200 := by
    have h1 := vmax_ge h200
    rcases hvals _ (vmax_mem hne) with h | h
    · omega
    · exact h
  have hrange : List.range' (vmin xs) (vmax xs - vmin xs) ≠ [] := by
    rw [hmin, hmax]
    simp [List.range'_eq_nil]
  have hbound : ∀ t, t ∈ List.range' (vmin xs) (vmax xs - vmin xs) →
      50 ≤ t ∧ t < 200 := by
    intro t ht
    rw [List.mem_range'_1, hmin, hmax] at ht
    omega
  have hsep : ∀ t : ℕ, 50 ≤ t → t < 200 → ∀ x ∈ xs, (t < x ↔ x = 200) := by
    intro t ha hb x hx
    rcases hvals x hx with rfl | rfl
    · constructor
      · intro hlt; omega
      · intro heq; omega
    · constructor
      · intro _; rfl
      · intro _; omega
  have hto : threshold_otsu xs ∈ List.range' (vmin xs) (vmax xs - vmin xs) :=
    argmaxFirst_mem _ _ hrange
  have hty : threshold_yen xs ∈ List.range' (vmin xs) (vmax xs - vmin xs) :=
    argminFirst_mem _ _ hrange
  obtain ⟨ho1, ho2⟩ := hbound _ hto
  obtain ⟨hy1, hy2⟩ := hbound _ hty
  exact ⟨⟨ho1, ho2, hsep _ ho1 ho2⟩, hy1, hy2, hsep _ hy1 hy2⟩

/-- C9 counterexample: on the two-spike volume `[50, 200]` the modelled left-to-right
scan returns exactly 50 for both methods (every separating cut attains the optimum and
the tie goes to the earliest level), so the thresholds are not strictly between 50 and
200 as the claim states. -/
theorem C9_counterexample :
    (∀ x ∈ ([50, 200] : List ℕ), x = 50 ∨ x = 200) ∧
    threshold_otsu [50, 200] = 50 ∧ threshold_yen [50, 200] = 50 ∧
    ¬(50 < threshold_otsu [50, 200] ∧ threshold_otsu [50, 200] < 200 ∧
      50 < threshold_yen [50, 200] ∧ threshold_yen [50, 200] < 200) := by
  have hlow : ∀ t : ℕ, 50 ≤ t → t < 200 → classLow [50, 200] t = [50] := by
    intro t h1 h2
    have h3 : ¬(200 ≤ t) := by omega
    simp [classLow, List.filter_cons, h1, h3]
  have hhigh : ∀ t : ℕ, 50 ≤ t → t < 200 → classHigh [50, 200] t = [200] := by
    intro t h1 h2
    have h3 : ¬(t < 50) := by omega
    simp [classHigh, List.filter_cons, h3, h2]
  have hconst1 : ∀ t ∈ List.range' 50 150, betweenVar [50, 200] t = 5625 := by
    intro t ht
    rw [List.mem_range'_1] at ht
    unfold betweenVar
    rw [hlow t ht.1 (by omega), hhigh t ht.1 (by omega)]
    norm_num [umean]
  have hconst2 : ∀ t ∈ List.range' 50 150, classVarProd [50, 200] t = 0 := by
    intro t ht
    rw [List.mem_range'_1] at ht
    unfold classVarProd
    rw [hlow t ht.1 (by omega), hhigh t ht.1 (by omega)]
    norm_num [uvar, umean, lmean]
  have hmin : vmin [50, 200] = 50 := by decide
  have hmax : vmax [50, 200] = 200 := by decide
  have hotsu : threshold_otsu [50, 200] = 50 := by
    show argmaxFirst (betweenVar [50, 200])
        (List.range' (vmin [50, 200]) (vmax [50, 200] - vmin [50, 200])) = 50
    rw [hmin, hmax]
    rw [argmaxFirst_const (betweenVar [50, 200]) 5625 _ hconst1]
    rfl
  have hyen : threshold_yen [50, 200] = 50 := by
    show argminFirst (classVarProd [50, 200])
        (List.range' (vmin [50, 200]) (vmax [50, 200] - vmin [50, 200])) = 50
    rw [hmin, hmax]
    rw [argminFirst_const (classVarProd [50, 200]) 0 _ hconst2]
    rfl
  refine ⟨by decide, hotsu, hyen, ?_⟩
  rw [hotsu, hyen]
  omega

theorem C9_witness :
    ((∀ x ∈ ([50, 200] : List ℕ), x = 50 ∨ x = 200) ∧ 50 ∈ ([50, 200] : List ℕ) ∧
      200 ∈ ([50, 200] : List ℕ)) ∧
      ((50 ≤ threshold_otsu [50, 200] ∧ threshold_otsu [50, 200] < 200 ∧
        ∀ x ∈ ([50, 200] : List ℕ), (threshold_otsu [50, 200] < x ↔ x = 200)) ∧
       (50 ≤ threshold_yen [50, 200] ∧ threshold_yen [50, 200] < 200 ∧
        ∀ x ∈ ([50, 200] : List ℕ), (threshold_yen [50, 200] < x ↔ x = 200))) :=
  ⟨⟨by decide, by decide, by decide⟩,
    C9_thresholds_separate [50, 200] (by decide) (by decide) (by decide)⟩

end Py3DImage
